import Mathlib

/-!
Verification development for the cardano-connector repository.

The first part embeds the multi-asset value aggregator (`sumup`) and the
output consolidator (`group_utxos`) from `src/cardano/mod.rs`.  Machine
integers (`u64`) are modelled as `Nat` with explicit reduction modulo
`2 ^ 64` where the source performs wrapping arithmetic, and a Rust panic
(debug-overflow, `unwrap`, `todo!`, `assert_eq!`) is modelled as `none`
(for `Option`-valued functions) or a dedicated `abort` constructor.

Rust's `HashMap` accumulators are modelled as insertion-ordered
association lists: a key absent from the list is absent from the map, and
a freshly inserted key is appended at the end.  The map *content*
(membership and per-key values) is exactly that of the source; the
concrete iteration order of `HashMap` is unspecified in Rust, and the
insertion order used here is one deterministic refinement of it.
-/

namespace CardanoConnector

/-- One `u64` past the maximum: the modulus of wrapping 64-bit arithmetic. -/
def U64M : Nat := 2 ^ 64

/-- `PolicyId` (a 28-byte hash) modelled as its byte list. -/
abbrev PolicyId := List Nat

/-- `AssetName` (an opaque byte string) modelled as its byte list. -/
abbrev AssetName := List Nat

/-- `pallas_primitives::alonzo::Value`: the legacy value encoding.  The
`Multiasset` payload `KeyValuePairs<PolicyId, KeyValuePairs<AssetName, Coin>>`
is modelled as a list of pairs; amounts are plain `u64` (may be zero). -/
inductive LegacyValue
  | coin (c : Nat)
  | multiasset (c : Nat) (assets : List (PolicyId × List (AssetName × Nat)))
deriving DecidableEq, Repr

/-- `pallas_primitives::conway::Value`: the post-Alonzo value encoding.
`Multiasset` is `NonEmptyKeyValuePairs<PolicyId, NonEmptyKeyValuePairs<AssetName,
PositiveCoin>>`; the `Def` variant wraps a plain vector, modelled as a list. -/
inductive Value
  | coin (c : Nat)
  | multiasset (c : Nat) (assets : List (PolicyId × List (AssetName × Nat)))
deriving DecidableEq, Repr

/-- `alonzo::TransactionOutput` (legacy): address, amount, optional datum hash. -/
structure LegacyTxOut where
  address : List Nat
  amount : LegacyValue
  datum_hash : Option (List Nat)
deriving DecidableEq, Repr

/-- `PseudoPostAlonzoTransactionOutput`: address, value, optional datum and
script reference (the latter two are never inspected by the core, so their
contents are collapsed to `Unit`). -/
structure PostAlonzoTxOut where
  address : List Nat
  value : Value
  datum_option : Option Unit
  script_ref : Option Unit
deriving DecidableEq, Repr

/-- `conway::PseudoTransactionOutput`: the two historical output encodings. -/
inductive TransactionOutput
  | legacy (tx : LegacyTxOut)
  | postAlonzo (tx : PostAlonzoTxOut)
deriving DecidableEq, Repr

/-- `pallas_primitives::TransactionInput`: 32-byte transaction id and index. -/
structure TransactionInput where
  transaction_id : List Nat
  index : Nat
deriving DecidableEq, Repr

/-- `Utxo` from `src/cardano/mod.rs`: a transaction input paired with the
output it refers to. -/
structure Utxo where
  input : TransactionInput
  output : TransactionOutput
deriving DecidableEq, Repr

/-- An address handed to `group_utxos`, modelled as its byte form. -/
abbrev Address := List Nat

/-- The asset accumulator `HashMap<AssetName, PositiveCoin>` as an
insertion-ordered association list. -/
abbrev AssetMap := List (AssetName × Nat)

/-- The policy accumulator `HashMap<PolicyId, HashMap<AssetName, PositiveCoin>>`
as an insertion-ordered association list. -/
abbrev PolicyMap := List (PolicyId × AssetMap)

/-- Lookup in an association list with byte-list keys (`HashMap::get`).
Both accumulator maps key by byte lists, so one generic lookup serves both. -/
def alLook {β : Type} : List (List Nat × β) → List Nat → Option β
  | [], _ => none
  | (k, v) :: t, a => if k = a then some v else alLook t a

/-- Replace the value stored at an existing key (the `and_modify` write).
A key that is absent is left absent. -/
def alSet {β : Type} : List (List Nat × β) → List Nat → β → List (List Nat × β)
  | [], _, _ => []
  | (k, v) :: t, a, n => if k = a then (k, n) :: t else (k, v) :: alSet t a n



/-- One `entry(asset_name).and_modify(..).or_insert_with(..)` step of `sumup`.
If the key is present the stored total becomes `(t + amt) % 2^64` (the `+` on
`u64` wraps in release builds) and `PositiveCoin::try_from(..).unwrap()` panics
when that wrapped total is `0`.  If the key is absent, the legacy arm
(`chk = true`) runs `PositiveCoin::try_from(amt).unwrap()`, panicking on
`amt = 0`, while the post-Alonzo arm inserts the already-positive coin as is.
`none` models the panic. -/
def amAdd (chk : Bool) (m : AssetMap) (a : AssetName) (amt : Nat) : Option AssetMap :=
  match alLook m a with
  | some t =>
    let v := (t + amt) % U64M
    if v = 0 then none else some (alSet m a v)
  | none => if chk ∧ amt = 0 then none else some (m ++ [(a, amt)])

/-- The inner `for (asset_name, amount) in asset.iter()` loop of `sumup`,
folded over one policy's asset entries. -/
def amAddAll (chk : Bool) : AssetMap → List (AssetName × Nat) → Option AssetMap
  | am, [] => some am
  | am, (a, amt) :: t =>
    match amAdd chk am a amt with
    | none => none
    | some am' => amAddAll chk am' t



/-- `assets.entry(*cert).or_default()`: make sure the policy key is present,
appending it with an empty inner map when absent. -/
def pmEnsure (m : PolicyMap) (p : PolicyId) : PolicyMap :=
  match alLook m p with
  | some _ => m
  | none => m ++ [(p, [])]

/-- Process one `(policy, asset-entries)` pair of an output's multiasset map:
`or_default` the policy slot, then fold the inner asset loop into it. -/
def pmAddPolicy (chk : Bool) (pm : PolicyMap) (p : PolicyId)
    (entries : List (AssetName × Nat)) : Option PolicyMap :=
  let pm1 := pmEnsure pm p
  match amAddAll chk ((alLook pm1 p).getD []) entries with
  | none => none
  | some am => some (alSet pm1 p am)

/-- The `for (cert, asset) in multiasset.iter()` loop of `sumup`. -/
def pmAddAssets (chk : Bool) : PolicyMap → List (PolicyId × List (AssetName × Nat)) →
    Option PolicyMap
  | pm, [] => some pm
  | pm, (p, entries) :: t =>
    match pmAddPolicy chk pm p entries with
    | none => none
    | some pm' => pmAddAssets chk pm' t

/-- The mutable state of `sumup`'s loop: the coin accumulator and the
policy-to-asset accumulator. -/
structure SumSt where
  coin : Nat
  assets : PolicyMap
deriving DecidableEq, Repr

/-- One iteration of `sumup`'s `for output in outputs` loop.  `coin += c`
wraps modulo `2^64` (release semantics; a debug build would abort instead).
The legacy arm runs the asset loop with `PositiveCoin::try_from` on inserts
(`chk = true`), the post-Alonzo arm without (`chk = false`). -/
def sumupStep (s : SumSt) : TransactionOutput → Option SumSt
  | .legacy tx =>
    match tx.amount with
    | .coin c => some ⟨(s.coin + c) % U64M, s.assets⟩
    | .multiasset c m =>
      match pmAddAssets true s.assets m with
      | none => none
      | some pm => some ⟨(s.coin + c) % U64M, pm⟩
  | .postAlonzo tx =>
    match tx.value with
    | .coin c => some ⟨(s.coin + c) % U64M, s.assets⟩
    | .multiasset c m =>
      match pmAddAssets false s.assets m with
      | none => none
      | some pm => some ⟨(s.coin + c) % U64M, pm⟩

/-- The whole `for output in outputs` loop. -/
def sumupGo : SumSt → List TransactionOutput → Option SumSt
  | s, [] => some s
  | s, o :: t =>
    match sumupStep s o with
    | none => none
    | some s' => sumupGo s' t

/-- `sumup` from `src/cardano/mod.rs` lines 119-183: fold all outputs into the
accumulator, then finalize with `Multiasset::from_vec`, which yields `None`
exactly when the accumulator holds no policy keys (it performs no pruning of
inner entries).  `none` models a panic inside the loop. -/
def sumup (outputs : List TransactionOutput) : Option Value :=
  match sumupGo ⟨0, []⟩ outputs with
  | none => none
  | some s =>
    match s.assets with
    | [] => some (.coin s.coin)
    | pe :: t => some (.multiasset s.coin (pe :: t))

/-- `GroupUtxoError`: the only error variant is `CantPayFee { fee, sum }`. -/
inductive GroupUtxoError
  | cantPayFee (fee : Nat) (sum : Nat)
deriving DecidableEq, Repr

/-- Outcome of a fallible Rust function: a value, an error value, or a
process abort (panic). -/
inductive RRes (ε : Type) (α : Type)
  | ok (a : α)
  | err (e : ε)
  | abort
deriving DecidableEq, Repr

/-- `group_utxos` from `src/cardano/mod.rs` lines 74-117.  Its first
statement is `let network_id = todo!();` (line 82), which panics
unconditionally before any input is aggregated, any fee subtracted, or any
output built, so the whole function reduces to an abort for every input. -/
def group_utxos (_utxos : List Utxo) (_fee : Nat) (_dst : Address) :
    RRes GroupUtxoError (TransactionOutput × List TransactionInput) :=
  .abort

/-!
The second part embeds the COSE_Sign1 subsystem of
`src/connected_wallet.rs`: `extract_address_from_protected_header`,
`extract_cose_key` and `decode_cose_sig1`.  These are written against the
external `cbor_event` crate; its reader/writer primitives (`map`, `array`,
`bytes`, `Value::deserialize`, `Serializer::write_*`) are modelled here as
structural CBOR codecs over byte lists, following the standard CBOR layout
those primitives implement.  A byte buffer is a `List Nat`, a position is a
`Nat`, and a failed read is `none` (the crate's `cbor_event::Error`, which
the source maps to an `APIError` via `cbor_to_api`).

The generic `Value::deserialize` is modelled by `decodeItem`, which consumes
one complete CBOR item (recursing into arrays, maps, tags and indefinite
chunks) and classifies it only as far as the source inspects it: the break
sentinel, a text string, a negative integer, or anything else.  Recursion is
by fuel; `itemFuel` is larger than the number of recursive calls any parse
of the buffer can make (every decoded item consumes at least its header
byte), so fuel exhaustion only occurs on buffers where the real decoder
already fails with a truncation error.
-/

/-- The decode errors of the envelope subsystem.  The source wraps
`cbor_event` failures and the two scan failures into `APIError` values;
only the three kinds are distinguished here. -/
inductive CWErr
  | cborError
  | missingAddress
  | missingKey
deriving DecidableEq, Repr

/-- Read `k` bytes big-endian starting at `p` (the multi-byte length
argument of a CBOR header). -/
def beNat (b : List Nat) (p k : Nat) : Option Nat :=
  if p + k ≤ b.length then some (((b.drop p).take k).foldl (fun acc x => acc * 256 + x) 0)
  else none

/-- A CBOR header length: a definite count/value, or indefinite. -/
inductive CborLen
  | len (n : Nat)
  | indef
deriving DecidableEq, Repr

/-- Read one CBOR head at `p`: the major type, its argument (definite value
or the indefinite marker), and the position after the head.  Additional-info
values 28-30 are malformed. -/
def readHead (b : List Nat) (p : Nat) : Option (Nat × CborLen × Nat) :=
  match b.get? p with
  | none => none
  | some h =>
    let maj := h / 32
    let info := h % 32
    if info < 24 then some (maj, .len info, p + 1)
    else if info = 24 then (beNat b (p + 1) 1).map (fun n => (maj, .len n, p + 2))
    else if info = 25 then (beNat b (p + 1) 2).map (fun n => (maj, .len n, p + 3))
    else if info = 26 then (beNat b (p + 1) 4).map (fun n => (maj, .len n, p + 5))
    else if info = 27 then (beNat b (p + 1) 8).map (fun n => (maj, .len n, p + 9))
    else if info = 31 then some (maj, .indef, p + 1)
    else none

/-- `Deserializer::map()`: the head must have major type 5. -/
def readMapHeaderAt (b : List Nat) (p : Nat) : Option (CborLen × Nat) :=
  match readHead b p with
  | some (5, l, q) => some (l, q)
  | _ => none

/-- `Deserializer::array()`: the head must have major type 4. -/
def readArrayHeaderAt (b : List Nat) (p : Nat) : Option (CborLen × Nat) :=
  match readHead b p with
  | some (4, l, q) => some (l, q)
  | _ => none

/-- `Deserializer::bytes()`: a definite-length byte string (major type 2). -/
def readBytesAt (b : List Nat) (p : Nat) : Option (List Nat × Nat) :=
  match readHead b p with
  | some (2, .len n, q) =>
    if q + n ≤ b.length then some ((b.drop q).take n, q + n) else none
  | _ => none

/-- UTF-8 validity of a byte list (text strings are decoded to `&str` by the
reader, and invalid UTF-8 is a decode error). -/
def validUtf8 : List Nat → Bool
  | [] => true
  | c :: rest =>
    if c < 0x80 then validUtf8 rest
    else if c < 0xC2 then false
    else if c < 0xE0 then
      match rest with
      | c1 :: r => decide (0x80 ≤ c1 ∧ c1 < 0xC0) && validUtf8 r
      | _ => false
    else if c < 0xF0 then
      match rest with
      | c1 :: c2 :: r =>
        (if c = 0xE0 then decide (0xA0 ≤ c1 ∧ c1 < 0xC0)
         else if c = 0xED then decide (0x80 ≤ c1 ∧ c1 < 0xA0)
         else decide (0x80 ≤ c1 ∧ c1 < 0xC0))
          && decide (0x80 ≤ c2 ∧ c2 < 0xC0) && validUtf8 r
      | _ => false
    else if c < 0xF5 then
      match rest with
      | c1 :: c2 :: c3 :: r =>
        (if c = 0xF0 then decide (0x90 ≤ c1 ∧ c1 < 0xC0)
         else if c = 0xF4 then decide (0x80 ≤ c1 ∧ c1 < 0x90)
         else decide (0x80 ≤ c1 ∧ c1 < 0xC0))
          && decide (0x80 ≤ c2 ∧ c2 < 0xC0) && decide (0x80 ≤ c3 ∧ c3 < 0xC0)
          && validUtf8 r
      | _ => false
    else false

/-- A decoded generic item, classified only as far as the scanning code
inspects it: the break sentinel, a text string (carried as its UTF-8
bytes), a negative integer, or any other completely consumed item. -/
inductive CItem
  | brk
  | text (ts : List Nat)
  | i64 (z : Int)
  | other
deriving DecidableEq, Repr

/-- The value of a major-type-1 (negative integer) head argument as the
reader's `i64`: `-(n as i64) - 1` with a two's-complement cast.  Only the
value `-2` is ever inspected by the source, and no 64-bit argument maps to
`-2`, so the cast convention is inessential. -/
def negRepr (n : Nat) : Int :=
  if n < 2 ^ 63 then -(n : Int) - 1 else (2 ^ 64 : Int) - n - 1

/-- Consume the chunks of an indefinite-length string of major type `maj`
until the break byte, concatenating their contents.  A flat loop: chunks
never nest. -/
def decodeChunks (b : List Nat) (fuel : Nat) (maj : Nat) (p : Nat) :
    Option (List Nat × Nat) :=
  match fuel with
  | 0 => none
  | fuel' + 1 =>
    match b.get? p with
    | none => none
    | some h =>
      if h = 0xFF then some ([], p + 1)
      else
        match readHead b p with
        | some (m, .len n, q) =>
          if m = maj ∧ q + n ≤ b.length then
            match decodeChunks b fuel' maj (q + n) with
            | none => none
            | some (ts, r) => some ((b.drop q).take n ++ ts, r)
          else none
        | _ => none

/-- A pending obligation while a nested item is being consumed: `n` more
items to read (the remainder of a definite array, or of a definite map
counted as `2 n` items, or a tag's single child), the elements of an
indefinite array until break, the entries of an indefinite map until
break, or the chunks of an indefinite string. -/
inductive SkipFrame
  | items (n : Nat)
  | indefArr
  | indefMap
  | chunks (maj : Nat)
deriving DecidableEq, Repr

/-- The result of reading one head while skipping: a complete atomic item
ending at `q`, the break sentinel ending at `q`, or the opening of a
nested structure whose contents remain to be consumed. -/
inductive Shallow
  | atom (q : Nat)
  | brkAt (q : Nat)
  | push (f : SkipFrame) (q : Nat)
deriving DecidableEq, Repr

/-- Read one head at `p` and classify it for skipping.  Definite strings
are consumed whole (text still has to be valid UTF-8, since the reader
materializes it even when the caller discards it); arrays, maps, tags and
indefinite strings open a nested obligation. -/
def shallowStep (b : List Nat) (p : Nat) : Option Shallow :=
  match readHead b p with
  | none => none
  | some (maj, arg, q) =>
    match maj, arg with
    | 0, .len _ => some (.atom q)
    | 1, .len _ => some (.atom q)
    | 2, .len n => if q + n ≤ b.length then some (.atom (q + n)) else none
    | 2, .indef => some (.push (.chunks 2) q)
    | 3, .len n =>
      if q + n ≤ b.length then
        if validUtf8 ((b.drop q).take n) then some (.atom (q + n)) else none
      else none
    | 3, .indef => some (.push (.chunks 3) q)
    | 4, .len n => some (.push (.items n) q)
    | 4, .indef => some (.push .indefArr q)
    | 5, .len n => some (.push (.items (2 * n)) q)
    | 5, .indef => some (.push .indefMap q)
    | 6, .len _ => some (.push (.items 1) q)
    | 7, .len _ => some (.atom q)
    | 7, .indef => some (.brkAt q)
    | _, _ => none

/-- Discharge a stack of pending obligations starting at `p`, returning the
position after the last one.  Together with `decodeItem` below this is the
recursion of `Value::deserialize`, run as an explicit stack so that the
function is structurally recursive on its fuel.  Inside a definite count a
break sentinel is consumed as an ordinary item; inside an indefinite array
or map it closes that obligation; an indefinite-map entry whose key is not
the break sentinel owes one further item for its value. -/
def skipFrames (b : List Nat) : Nat → List SkipFrame → Nat → Option Nat
  | 0, _, _ => none
  | _ + 1, [], p => some p
  | fuel + 1, .items 0 :: st, p => skipFrames b fuel st p
  | fuel + 1, .items (n + 1) :: st, p =>
    match shallowStep b p with
    | none => none
    | some (.atom q) => skipFrames b fuel (.items n :: st) q
    | some (.brkAt q) => skipFrames b fuel (.items n :: st) q
    | some (.push f q) => skipFrames b fuel (f :: .items n :: st) q
  | fuel + 1, .indefArr :: st, p =>
    match shallowStep b p with
    | none => none
    | some (.brkAt q) => skipFrames b fuel st q
    | some (.atom q) => skipFrames b fuel (.indefArr :: st) q
    | some (.push f q) => skipFrames b fuel (f :: .indefArr :: st) q
  | fuel + 1, .indefMap :: st, p =>
    match shallowStep b p with
    | none => none
    | some (.brkAt q) => skipFrames b fuel st q
    | some (.atom q) => skipFrames b fuel (.items 1 :: .indefMap :: st) q
    | some (.push f q) => skipFrames b fuel (f :: .items 1 :: .indefMap :: st) q
  | fuel + 1, .chunks maj :: st, p =>
    match decodeChunks b (b.length + 2) maj p with
    | none => none
    | some (_, q) => skipFrames b fuel st q

/-- `Value::deserialize`: consume one complete CBOR item starting at `p`.
Returns the classification and the position after the item. -/
def decodeItem (b : List Nat) (fuel : Nat) (p : Nat) : Option (CItem × Nat) :=
  match readHead b p with
  | none => none
  | some (maj, arg, q) =>
    match maj, arg with
    | 0, .len _ => some (.other, q)
    | 1, .len n => some (.i64 (negRepr n), q)
    | 2, .len n => if q + n ≤ b.length then some (.other, q + n) else none
    | 2, .indef =>
      match decodeChunks b (b.length + 2) 2 q with
      | none => none
      | some (_, r) => some (.other, r)
    | 3, .len n =>
      if q + n ≤ b.length then
        if validUtf8 ((b.drop q).take n) then some (.text ((b.drop q).take n), q + n)
        else none
      else none
    | 3, .indef =>
      match decodeChunks b (b.length + 2) 3 q with
      | none => none
      | some (ts, r) => if validUtf8 ts then some (.text ts, r) else none
    | 4, .len n =>
      match skipFrames b fuel [.items n] q with
      | none => none
      | some r => some (.other, r)
    | 4, .indef =>
      match skipFrames b fuel [.indefArr] q with
      | none => none
      | some r => some (.other, r)
    | 5, .len n =>
      match skipFrames b fuel [.items (2 * n)] q with
      | none => none
      | some r => some (.other, r)
    | 5, .indef =>
      match skipFrames b fuel [.indefMap] q with
      | none => none
      | some r => some (.other, r)
    | 6, .len _ =>
      match skipFrames b fuel [.items 1] q with
      | none => none
      | some r => some (.other, r)
    | 7, .len _ => some (.other, q)
    | 7, .indef => some (.brk, q)
    | _, _ => none

/-- Fuel that dominates the number of recursive calls any parse of `b` can
make (each decoded item consumes at least one byte of `b`). -/
def itemFuel (b : List Nat) : Nat := 4 * b.length + 16

/-- The loop guard of the two scan loops: `read < n` for a definite map,
always true for an indefinite one. -/
def scanGuard (len : CborLen) (read : Nat) : Bool :=
  match len with
  | .len n => decide (read < n)
  | .indef => true

/-- The UTF-8 bytes of the text `"address"`. -/
def addressBytes : List Nat := [0x61, 0x64, 0x64, 0x72, 0x65, 0x73, 0x73]

/-- The scan loop of `extract_address_from_protected_header` (lines
430-449).  Each iteration deserializes one item as the entry's key.  A break
sentinel leaves the loop (falling through to the missing-address error); a
text key equal to `"address"` returns the byte string that follows; a text
key different from `"address"` advances to the next iteration *without*
consuming the entry's value; any other key has the following item
deserialized and discarded.  `fuel` bounds the number of iterations; every
iteration consumes at least one byte, so `b.length + 2` iterations are
never exhausted before a read fails. -/
def eaGo (b : List Nat) (len : CborLen) : Nat → Nat → Nat → RRes CWErr (List Nat)
  | 0, _, _ => .err .cborError
  | fuel + 1, p, read =>
    if scanGuard len read then
      match decodeItem b (itemFuel b) p with
      | none => .err .cborError
      | some (.brk, _) => .err .missingAddress
      | some (.text t, p1) =>
        if t = addressBytes then
          match readBytesAt b p1 with
          | none => .err .cborError
          | some (a, _) => .ok a
        else eaGo b len fuel p1 (read + 1)
      | some (_, p1) =>
        match decodeItem b (itemFuel b) p1 with
        | none => .err .cborError
        | some (_, p2) => eaGo b len fuel p2 (read + 1)
    else .err .missingAddress

/-- `extract_address_from_protected_header` (lines 422-455): decode the
protected header as its own map and scan it for the `"address"` entry. -/
def extract_address_from_protected_header (b : List Nat) : RRes CWErr (List Nat) :=
  match readMapHeaderAt b 0 with
  | none => .err .cborError
  | some (len, p) => eaGo b len (b.length + 2) p 0

/-- The scan loop of `extract_cose_key` (lines 465-486).  A break sentinel
leaves the loop (missing-key error); a key equal to the integer `-2` reads
the byte string that follows and `assert_eq!`s its length against 32 —
modelled as `abort` when the length differs; any other key has the
following item deserialized and discarded. -/
def ekGo (b : List Nat) (len : CborLen) : Nat → Nat → Nat → RRes CWErr (List Nat)
  | 0, _, _ => .err .cborError
  | fuel + 1, p, read =>
    if scanGuard len read then
      match decodeItem b (itemFuel b) p with
      | none => .err .cborError
      | some (.brk, _) => .err .missingKey
      | some (.i64 z, p1) =>
        if z = -2 then
          match readBytesAt b p1 with
          | none => .err .cborError
          | some (kb, _) => if kb.length = 32 then .ok kb else .abort
        else
          match decodeItem b (itemFuel b) p1 with
          | none => .err .cborError
          | some (_, p2) => ekGo b len fuel p2 (read + 1)
      | some (_, p1) =>
        match decodeItem b (itemFuel b) p1 with
        | none => .err .cborError
        | some (_, p2) => ekGo b len fuel p2 (read + 1)
    else .err .missingKey

/-- `extract_cose_key` (lines 457-492): decode the signing-key structure as
a map and scan it for the `-2` (curve x-coordinate) entry. -/
def extract_cose_key (b : List Nat) : RRes CWErr (List Nat) :=
  match readMapHeaderAt b 0 with
  | none => .err .cborError
  | some (len, p) => ekGo b len (b.length + 2) p 0

/-- The `map_with` call that skips the unprotected map (lines 505-511):
read the map header, then deserialize and discard one key and one value per
entry — a definite count of entries, or until the break sentinel. -/
def suGo (b : List Nat) : Nat → CborLen → Nat → Nat → Option Nat
  | 0, _, _, _ => none
  | fuel + 1, .len n, p, read =>
    if read < n then
      match decodeItem b (itemFuel b) p with
      | none => none
      | some (_, p1) =>
        match decodeItem b (itemFuel b) p1 with
        | none => none
        | some (_, p2) => suGo b fuel (.len n) p2 (read + 1)
    else some p
  | fuel + 1, .indef, p, read =>
    match decodeItem b (itemFuel b) p with
    | none => none
    | some (.brk, p1) => some p1
    | some (_, p1) =>
      match decodeItem b (itemFuel b) p1 with
      | none => none
      | some (_, p2) => suGo b fuel .indef p2 (read + 1)

/-- Skip the unprotected map starting at `p`, returning the position after
it. -/
def skipUnprotected (b : List Nat) (p : Nat) : Option Nat :=
  match readMapHeaderAt b p with
  | none => none
  | some (mlen, q) => suGo b (b.length + 2) mlen q 0

/-- The fields `decode_cose_sig1` reads out of the envelope before it
rebuilds the to-be-signed bytes. -/
structure Sig1Parts where
  protected_header : List Nat
  address : List Nat
  payload : List Nat
  signature : List Nat
deriving DecidableEq, Repr

/-- The reading half of `decode_cose_sig1` (lines 497-518): read the array
header and ignore its declared length (the source binds it to `_len`), read
the protected header bytes and scan them for the address, skip the
unprotected map, read the payload and the signature, and `assert_eq!` the
signature length against 64 — modelled as `abort` when it differs. -/
def decodeSig1Parts (b : List Nat) : RRes CWErr Sig1Parts :=
  match readArrayHeaderAt b 0 with
  | none => .err .cborError
  | some (_len, p0) =>
    match readBytesAt b p0 with
    | none => .err .cborError
    | some (ph, p1) =>
      match extract_address_from_protected_header ph with
      | .err e => .err e
      | .abort => .abort
      | .ok address =>
        match skipUnprotected b p1 with
        | none => .err .cborError
        | some p2 =>
          match readBytesAt b p2 with
          | none => .err .cborError
          | some (data, p3) =>
            match readBytesAt b p3 with
            | none => .err .cborError
            | some (sig, _) =>
              if sig.length = 64 then .ok ⟨ph, address, data, sig⟩ else .abort

/-- The canonical (shortest-form) CBOR head written by the serializer's
`write_*` operations for major type `maj` and argument `n`. -/
def writeHeader (maj n : Nat) : List Nat :=
  if n < 24 then [32 * maj + n]
  else if n < 2 ^ 8 then [32 * maj + 24, n]
  else if n < 2 ^ 16 then [32 * maj + 25, n / 256 % 256, n % 256]
  else if n < 2 ^ 32 then
    [32 * maj + 26, n / 2 ^ 24 % 256, n / 2 ^ 16 % 256, n / 256 % 256, n % 256]
  else
    [32 * maj + 27, n / 2 ^ 56 % 256, n / 2 ^ 48 % 256, n / 2 ^ 40 % 256,
      n / 2 ^ 32 % 256, n / 2 ^ 24 % 256, n / 2 ^ 16 % 256, n / 256 % 256, n % 256]

/-- `Serializer::write_bytes`: a definite byte string. -/
def writeBytesS (bs : List Nat) : List Nat := writeHeader 2 bs.length ++ bs

/-- `Serializer::write_text`: a definite text string. -/
def writeTextS (ts : List Nat) : List Nat := writeHeader 3 ts.length ++ ts

/-- The UTF-8 bytes of the text literal `"Signature1"`. -/
def signature1Bytes : List Nat :=
  [0x53, 0x69, 0x67, 0x6E, 0x61, 0x74, 0x75, 0x72, 0x65, 0x31]

/-- The serializer calls of `decode_cose_sig1` lines 520-530: a 4-element
definite array holding the text `"Signature1"`, the protected header bytes
as a byte string, an empty byte string, and the payload as a byte string. -/
def buildSignedData (ph payload : List Nat) : List Nat :=
  writeHeader 4 4 ++ writeTextS signature1Bytes ++ writeBytesS ph ++
    writeBytesS [] ++ writeBytesS payload

/-- The `SignedData` record of `src/connected_wallet.rs` line 408. -/
structure SignedData where
  key : List Nat
  signature : List Nat
  signed_data : List Nat
  address : List Nat
deriving DecidableEq, Repr

/-- `decode_cose_sig1` (lines 494-538): read the envelope's fields, rebuild
the to-be-signed byte sequence, and assemble the `SignedData` with a zeroed
key (the key field is filled in later from `extract_cose_key`). -/
def decode_cose_sig1 (b : List Nat) : RRes CWErr SignedData :=
  match decodeSig1Parts b with
  | .err e => .err e
  | .abort => .abort
  | .ok parts =>
    .ok ⟨List.replicate 32 0, parts.signature,
      buildSignedData parts.protected_header parts.payload, parts.address⟩

/-- The canonical Sig_structure as the spec words it, written independently
of the serializer model above: the canonical CBOR encoding of a
definite-length 4-element array containing the text literal `"Signature1"`,
the raw protected-header bytes re-encoded as a byte string, an empty byte
string standing for no external authenticated data, and the payload bytes
as a byte string, every head using the shortest length form. -/
def specShortestHead (maj n : Nat) : List Nat :=
  if n < 24 then [32 * maj + n]
  else if n < 2 ^ 8 then [32 * maj + 24, n]
  else if n < 2 ^ 16 then [32 * maj + 25, n / 256 % 256, n % 256]
  else if n < 2 ^ 32 then
    [32 * maj + 26, n / 2 ^ 24 % 256, n / 2 ^ 16 % 256, n / 256 % 256, n % 256]
  else
    [32 * maj + 27, n / 2 ^ 56 % 256, n / 2 ^ 48 % 256, n / 2 ^ 40 % 256,
      n / 2 ^ 32 % 256, n / 2 ^ 24 % 256, n / 2 ^ 16 % 256, n / 256 % 256, n % 256]

/-- The spec-side Sig_structure: see `specShortestHead`. -/
def sigStructureSpec (ph payload : List Nat) : List Nat :=
  specShortestHead 4 4 ++
    (specShortestHead 3 10 ++ [0x53, 0x69, 0x67, 0x6E, 0x61, 0x74, 0x75, 0x72, 0x65, 0x31]) ++
    (specShortestHead 2 ph.length ++ ph) ++
    specShortestHead 2 0 ++
    (specShortestHead 2 payload.length ++ payload)

/-!
Concrete inputs used by the claim theorems below.
-/

/-- A protected header: the map `{"address": h'01'}` (11 bytes). -/
def exPh11 : List Nat := [0xA1, 0x67, 0x61, 0x64, 0x64, 0x72, 0x65, 0x73, 0x73, 0x41, 0x01]

/-- The body of a well-formed envelope after its array head: the protected
header above as a byte string, an empty unprotected map, an empty payload,
and a 64-byte all-zero signature. -/
def exTail6 : List Nat :=
  [0x4B] ++ exPh11 ++ [0xA0, 0x40, 0x58, 0x40] ++ List.replicate 64 0

/-- The `SignedData` produced for any envelope made of `exTail6`. -/
def exSd6 : SignedData :=
  ⟨List.replicate 32 0, List.replicate 64 0,
    [0x84, 0x6A, 0x53, 0x69, 0x67, 0x6E, 0x61, 0x74, 0x75, 0x72, 0x65, 0x31,
      0x4B, 0xA1, 0x67, 0x61, 0x64, 0x64, 0x72, 0x65, 0x73, 0x73, 0x41, 0x01,
      0x40, 0x40],
    [0x01]⟩

/-- A protected header whose first entry has a text key `"k"` with a
byte-string value and whose second entry is the `"address"` entry:
`{"k": h'01', "address": h'02'}`. -/
def exC7 : List Nat :=
  [0xA2, 0x61, 0x6B, 0x41, 0x01, 0x67] ++ addressBytes ++ [0x41, 0x02]

/-- A legacy output carrying one unit of asset `(policy [1], name [7])`. -/
def c9out1 : TransactionOutput := .legacy ⟨[], .multiasset 0 [([1], [([7], 1)])], none⟩

/-- A legacy output carrying a zero amount of the same asset. -/
def c9out0 : TransactionOutput := .legacy ⟨[], .multiasset 0 [([1], [([7], 0)])], none⟩

/-- The serializer calls of `decode_cose_sig1` produce exactly the
spec-side canonical Sig_structure encoding. -/
theorem buildSignedData_eq_spec (ph payload : List Nat) :
    buildSignedData ph payload = sigStructureSpec ph payload := rfl

/-- C1: the claim says the aggregator adds with checked addition and fails
with `Overflow` when the running coin sum exceeds `u64::MAX`.  The source
instead uses a plain wrapping `+=` (line 127/147): summing outputs of
`u64::MAX` and `1` coins yields `Coin(0)` — the sum reduced modulo `2^64` —
rather than an `Overflow` error (a debug build would abort instead of
wrapping). -/
theorem sumup_coin_overflow_wraps :
    sumup [.postAlonzo ⟨[], .coin (U64M - 1), none, none⟩,
        .postAlonzo ⟨[], .coin 1, none, none⟩] = some (.coin 0) := by
  decide

/-- C2: the claim says `group_utxos` either returns a consolidated output
or fails with `InsufficientFunds` and never aborts.  The source's first
statement is `let network_id = todo!();` (line 82), so the function aborts
for every input before doing any work. -/
theorem group_utxos_always_aborts (utxos : List Utxo) (fee : Nat) (dst : Address) :
    group_utxos utxos fee dst = .abort := rfl

/-- C3: for every envelope the decoder accepts, the reconstructed
to-be-signed byte sequence is exactly the canonical CBOR encoding of the
definite 4-element array `[text "Signature1", bytes(protected_header),
bytes(empty), bytes(payload)]` built from the protected-header and payload
fields it read. -/
theorem decode_cose_sig1_signed_bytes_canonical (b : List Nat) (sd : SignedData)
    (h : decode_cose_sig1 b = .ok sd) :
    ∃ parts : Sig1Parts, decodeSig1Parts b = .ok parts ∧
      sd.signed_data = sigStructureSpec parts.protected_header parts.payload := by
  unfold decode_cose_sig1 at h
  cases hp : decodeSig1Parts b <;> rw [hp] at h
  case ok parts =>
    cases h
    exact ⟨parts, rfl, (buildSignedData_eq_spec parts.protected_header parts.payload)⟩
  case err e => cases h
  case abort => cases h

/-- Witness for C3 at a concrete well-formed envelope. -/
theorem decode_cose_sig1_signed_bytes_canonical_witness :
    ∃ parts : Sig1Parts, decodeSig1Parts (0x84 :: exTail6) = .ok parts ∧
      exSd6.signed_data = sigStructureSpec parts.protected_header parts.payload :=
  decode_cose_sig1_signed_bytes_canonical (0x84 :: exTail6) exSd6 (by rfl)

/-- C4: the claim says a `-2` entry whose value is not exactly 32 bytes
fails with `MalformedKey` as an error value.  The source instead
`assert_eq!`s the length (line 477): on the key map `{-2: h'00…00'}` with a
31-byte value the process aborts. -/
theorem extract_cose_key_aborts_on_short_value :
    extract_cose_key ([0xA1, 0x21, 0x58, 0x1F] ++ List.replicate 31 0) = .abort := by
  rfl

/-- C5: the claim says a signature field that is not exactly 64 bytes fails
with `MalformedSignature` as an error value.  The source instead
`assert_eq!`s the length (line 516): on an envelope whose signature is the
2-byte string `h'0102'` the process aborts. -/
theorem decode_cose_sig1_aborts_on_short_signature :
    decode_cose_sig1 ([0x84, 0x4B] ++ exPh11 ++ [0xA0, 0x40, 0x42, 0x01, 0x02]) =
      .abort := by
  rfl

/-- C6 counterexample: an envelope whose top-level array head declares
length 2 — not 4 — decodes successfully instead of failing with
`MalformedEnvelope`: the source binds the declared length to `_len`
(line 499) and never checks it. -/
theorem decode_cose_sig1_accepts_len2_header :
    readArrayHeaderAt (0x82 :: exTail6) 0 = some (.len 2, 1) ∧
      decode_cose_sig1 (0x82 :: exTail6) = .ok exSd6 := by
  exact ⟨rfl, rfl⟩

/-- C6 amended: the decoder reads the top-level array head and ignores its
declared length; with the same four fields following, every declared
length `n < 24` (one head byte `0x80 + n`) decodes to the same result. -/
theorem decode_cose_sig1_ignores_declared_length :
    ∀ n : Nat, n < 24 → decode_cose_sig1 ((0x80 + n) :: exTail6) = .ok exSd6 := by
  decide

/-- Witness for the amended C6 at declared length 0. -/
theorem decode_cose_sig1_ignores_declared_length_witness :
    decode_cose_sig1 ((0x80 + 0) :: exTail6) = .ok exSd6 :=
  decode_cose_sig1_ignores_declared_length 0 (by decide)

/-- C7: the claim says a protected header containing a text key
`"address"` yields that entry's byte-string value, and `MissingAddress`
arises only when no such key exists.  On the header
`{"k": h'01', "address": h'02'}` the source returns `MissingAddress`: after
the text key `"k"` it does not consume the value `h'01'`, reads it as the
next key, and then discards the text item `"address"` as that entry's
value, exhausting the 2-entry map. -/
theorem extract_address_misses_present_address_key :
    extract_address_from_protected_header exC7 = .err .missingAddress := by
  rfl

/-- C8: the claim says a policy whose asset mapping is empty is pruned
before emission.  The source performs no pruning: aggregating one legacy
output `Multiasset(5, {policy: {}})` emits
`Multiasset(5, {policy: {}})` — the finalization wraps the accumulator's
entries in `NonEmptyKeyValuePairs::Def` without checking inner emptiness —
instead of normalizing to `Coin(5)`. -/
theorem sumup_emits_empty_policy_entry :
    sumup [.legacy ⟨[], .multiasset 5 [([1], [])], none⟩] =
      some (.multiasset 5 [([1], [])]) := by
  rfl

/-- C9 counterexample: aggregation is not permutation-invariant, because
whether the loop aborts depends on the input order.  A zero legacy amount
aborts when it is the first occurrence of its `(policy, asset)` key
(`PositiveCoin::try_from(0).unwrap()` on the insert arm) but is absorbed
when the key already exists: `[one-unit, zero]` aggregates to one unit
while the permuted `[zero, one-unit]` aborts and yields no `Value` at
all. -/
theorem sumup_perm_abort_counterexample :
    ([c9out0, c9out1]).Perm [c9out1, c9out0] ∧
      sumup [c9out1, c9out0] = some (.multiasset 0 [([1], [([7], 1)])]) ∧
      sumup [c9out0, c9out1] = none := by
  exact ⟨List.Perm.swap c9out1 c9out0 [], rfl, rfl⟩

/-- C10: while scanning the protected-header map, a text key different
from `"address"` does not have its entry's value consumed: the loop
continues at the position immediately after the text item, so the next
CBOR item it deserializes — this entry's value — is treated as the
following entry's key. -/
theorem extract_address_text_key_value_not_consumed
    (b : List Nat) (len : CborLen) (fuel p read : Nat) (t : List Nat) (p1 : Nat)
    (hg : scanGuard len read = true)
    (hk : decodeItem b (itemFuel b) p = some (.text t, p1))
    (ht : t ≠ addressBytes) :
    eaGo b len (fuel + 1) p read = eaGo b len fuel p1 (read + 1) := by
  simp only [eaGo, hg, hk, if_true]
  simp [ht]

/-- Witness for C10 on the concrete header `exC7`: the scan at its first
entry (text key `"k"` at position 1, value at position 3) continues at
position 3. -/
theorem extract_address_text_key_value_not_consumed_witness :
    eaGo exC7 (.len 2) 10 1 0 = eaGo exC7 (.len 2) 9 3 1 :=
  extract_address_text_key_value_not_consumed exC7 (.len 2) 9 1 0 [0x6B] 3
    (by decide) (by rfl) (by decide)

/-!
Characterization of the aggregator's accumulator content, used to settle
the permutation claim.  The emitted entry order is the model's insertion
order (the source's `HashMap` iteration order is unspecified), so the
meaningful permutation statement is about the accumulator's *content*:
which policy keys are present, and which total each `(policy, asset)` key
carries.
-/

/-- The amount the accumulator stores for `(policy, asset)`, if any. -/
def pmAmount (pm : PolicyMap) (p : PolicyId) (a : AssetName) : Option Nat :=
  match alLook pm p with
  | none => none
  | some am => alLook am a

/-- Whether the accumulator has an entry for the policy (possibly with an
empty inner map). -/
def pmHas (pm : PolicyMap) (p : PolicyId) : Bool := (alLook pm p).isSome

/-- Every value stored in an asset map is a representable `u64`. -/
def amBounded (m : AssetMap) : Prop := ∀ a v, alLook m a = some v → v < U64M

/-- Every value stored in the policy accumulator is a representable `u64`. -/
def pmBounded (pm : PolicyMap) : Prop := ∀ p a v, pmAmount pm p a = some v → v < U64M

/-- Whether an asset-entry list mentions the name `a`. -/
def amHasAt (a : AssetName) (E : List (AssetName × Nat)) : Bool :=
  E.any fun av => decide (av.1 = a)

/-- The total amount an asset-entry list carries for the name `a`. -/
def amSumAt (a : AssetName) (E : List (AssetName × Nat)) : Nat :=
  (E.map fun av => if av.1 = a then av.2 else 0).sum

/-- Whether a multiasset entry list mentions the policy `p`. -/
def eHasPolicy (p : PolicyId) (E : List (PolicyId × List (AssetName × Nat))) : Bool :=
  E.any fun pe => decide (pe.1 = p)

/-- Whether a multiasset entry list mentions the pair `(p, a)`. -/
def eHasPair (p : PolicyId) (a : AssetName)
    (E : List (PolicyId × List (AssetName × Nat))) : Bool :=
  E.any fun pe => decide (pe.1 = p) && amHasAt a pe.2

/-- The total amount a multiasset entry list carries for `(p, a)`. -/
def eSumPair (p : PolicyId) (a : AssetName)
    (E : List (PolicyId × List (AssetName × Nat))) : Nat :=
  (E.map fun pe => if pe.1 = p then amSumAt a pe.2 else 0).sum

/-- The coin component of an output, whichever encoding carries it. -/
def coinOf : TransactionOutput → Nat
  | .legacy tx => match tx.amount with | .coin c => c | .multiasset c _ => c
  | .postAlonzo tx => match tx.value with | .coin c => c | .multiasset c _ => c

/-- The multiasset entry list of an output (empty for plain coins). -/
def entriesOf : TransactionOutput → List (PolicyId × List (AssetName × Nat))
  | .legacy tx => match tx.amount with | .coin _ => [] | .multiasset _ m => m
  | .postAlonzo tx => match tx.value with | .coin _ => [] | .multiasset _ m => m

/-- Sum of the coin components of a list of outputs. -/
def lCoins (l : List TransactionOutput) : Nat := (l.map coinOf).sum

/-- Whether some output of the list mentions the policy `p`. -/
def lHasPolicy (p : PolicyId) (l : List TransactionOutput) : Bool :=
  l.any fun o => eHasPolicy p (entriesOf o)

/-- Whether some output of the list mentions the pair `(p, a)`. -/
def lHasPair (p : PolicyId) (a : AssetName) (l : List TransactionOutput) : Bool :=
  l.any fun o => eHasPair p a (entriesOf o)

/-- The total amount a list of outputs carries for `(p, a)`. -/
def lSumPair (p : PolicyId) (a : AssetName) (l : List TransactionOutput) : Nat :=
  (l.map fun o => eSumPair p a (entriesOf o)).sum

/-- Every amount of a multiasset entry list is a representable `u64`. -/
def eWF (E : List (PolicyId × List (AssetName × Nat))) : Prop :=
  ∀ pe ∈ E, ∀ av ∈ pe.2, av.2 < U64M

/-- Every asset amount of an output is a representable `u64`. -/
def outWF (o : TransactionOutput) : Prop := eWF (entriesOf o)

/-- Every asset amount of a list of outputs is a representable `u64`. -/
def lWF (l : List TransactionOutput) : Prop := ∀ o ∈ l, outWF o

theorem U64M_pos : 0 < U64M := by norm_num [U64M]

theorem alLook_alSet {β : Type} {m : List (List Nat × β)} {a : List Nat} {t : β}
    (hm : alLook m a = some t) (v : β) (a' : List Nat) :
    alLook (alSet m a v) a' = if a = a' then some v else alLook m a' := by
  induction m with
  | nil => simp [alLook] at hm
  | cons hd tl ih =>
    obtain ⟨k, w⟩ := hd
    simp only [alSet]
    by_cases hk : k = a
    · subst hk
      rw [if_pos rfl]
      simp only [alLook]
      by_cases ha : k = a'
      · simp only [if_pos ha]
      · simp only [if_neg ha]
    · rw [if_neg hk]
      have hm' : alLook tl a = some t := by simpa [alLook, hk] using hm
      simp only [alLook]
      by_cases ha : k = a'
      · have hne : ¬ a = a' := fun h => hk (h ▸ ha)
        simp only [if_pos ha, if_neg hne]
      · simp only [if_neg ha, ih hm']

theorem alLook_append {β : Type} (m : List (List Nat × β)) (a : List Nat) (x : β)
    (a' : List Nat) :
    alLook (m ++ [(a, x)]) a' =
      match alLook m a' with
      | some v => some v
      | none => if a = a' then some x else none := by
  induction m with
  | nil => simp [alLook]
  | cons hd tl ih =>
    obtain ⟨k, w⟩ := hd
    by_cases hk : k = a'
    · simp [alLook, hk]
    · simpa [alLook, hk] using ih

theorem amAdd_look {chk : Bool} {m : AssetMap} {a : AssetName} {amt : Nat}
    {m' : AssetMap} (hamt : amt < U64M) (h : amAdd chk m a amt = some m')
    (a' : AssetName) :
    alLook m' a' =
      if a = a' then some (((alLook m a').getD 0 + amt) % U64M)
      else alLook m a' := by
  unfold amAdd at h
  cases hl : alLook m a with
  | some t =>
    rw [hl] at h
    simp only at h
    by_cases hv : (t + amt) % U64M = 0
    · simp [hv] at h
    · simp only [hv, if_neg, reduceIte] at h
      cases h
      rw [alLook_alSet hl]
      by_cases ha : a = a'
      · subst ha
        rw [hl]
        rfl
      · simp [ha]
  | none =>
    rw [hl] at h
    by_cases hc : chk ∧ amt = 0
    · simp [hc] at h
    · simp only [hc, if_neg, reduceIte] at h
      cases h
      rw [alLook_append]
      by_cases ha : a = a'
      · subst ha
        rw [hl]
        simp [Nat.mod_eq_of_lt hamt]
      · simp only [ha, if_neg, reduceIte]
        cases alLook m a' <;> rfl

theorem amAdd_bounded {chk : Bool} {m : AssetMap} {a : AssetName} {amt : Nat}
    {m' : AssetMap} (hb : amBounded m) (hamt : amt < U64M)
    (h : amAdd chk m a amt = some m') : amBounded m' := by
  intro a' v hv
  rw [amAdd_look hamt h a'] at hv
  by_cases ha : a = a'
  · simp only [ha, reduceIte] at hv
    cases hv
    exact Nat.mod_lt _ U64M_pos
  · rw [if_neg ha] at hv
    exact hb a' v hv

theorem amHasAt_cons (a : AssetName) (k : AssetName) (v : Nat)
    (t : List (AssetName × Nat)) :
    amHasAt a ((k, v) :: t) = (decide (k = a) || amHasAt a t) := by
  simp [amHasAt]

theorem amSumAt_cons (a : AssetName) (k : AssetName) (v : Nat)
    (t : List (AssetName × Nat)) :
    amSumAt a ((k, v) :: t) = (if k = a then v else 0) + amSumAt a t := by
  simp [amSumAt]

theorem amSumAt_eq_zero {a : AssetName} {E : List (AssetName × Nat)}
    (h : amHasAt a E = false) : amSumAt a E = 0 := by
  induction E with
  | nil => rfl
  | cons hd tl ih =>
    rw [amHasAt_cons] at h
    rcases Bool.or_eq_false_iff.mp h with ⟨h1, h2⟩
    rw [amSumAt_cons, ih h2, if_neg (of_decide_eq_false h1)]

theorem amAddAll_look {chk : Bool} (E : List (AssetName × Nat)) :
    ∀ {m m' : AssetMap}, (∀ av ∈ E, av.2 < U64M) → amBounded m →
    amAddAll chk m E = some m' → ∀ a',
    alLook m' a' =
      if amHasAt a' E || (alLook m a').isSome
      then some (((alLook m a').getD 0 + amSumAt a' E) % U64M)
      else none := by
  induction E with
  | nil =>
    intro m m' _ hb h a'
    cases h
    simp only [amHasAt, List.any_nil, Bool.false_or, amSumAt, List.map_nil,
      List.sum_nil, Nat.add_zero]
    cases hl : alLook m a' with
    | none => rfl
    | some v => simp [Nat.mod_eq_of_lt (hb a' v hl)]
  | cons hd tl ih =>
    intro m m' hwf hb h a'
    obtain ⟨a0, amt0⟩ := hd
    unfold amAddAll at h
    cases h1 : amAdd chk m a0 amt0 with
    | none => rw [h1] at h; cases h
    | some m1 =>
      rw [h1] at h
      have hamt0 : amt0 < U64M := hwf (a0, amt0) (List.mem_cons_self _ _)
      have hwf' : ∀ av ∈ tl, av.2 < U64M := fun av hav => hwf av (List.mem_cons_of_mem _ hav)
      have hb1 : amBounded m1 := amAdd_bounded hb hamt0 h1
      have hmain := ih hwf' hb1 h a'
      have hm1 := amAdd_look hamt0 h1 a'
      rw [hmain, hm1, amHasAt_cons, amSumAt_cons]
      by_cases ha : a0 = a'
      · subst ha
        simp [Nat.mod_add_mod, Nat.add_assoc]
      · have hd0 : decide (a0 = a') = false := decide_eq_false ha
        simp only [hd0, Bool.false_or, if_neg ha, Nat.zero_add]

theorem amAddAll_bounded {chk : Bool} {E : List (AssetName × Nat)}
    {m m' : AssetMap} (hwf : ∀ av ∈ E, av.2 < U64M) (hb : amBounded m)
    (h : amAddAll chk m E = some m') : amBounded m' := by
  intro a' v hv
  rw [amAddAll_look E hwf hb h a'] at hv
  by_cases hc : (amHasAt a' E || (alLook m a').isSome) = true
  · rw [if_pos hc] at hv
    cases hv
    exact Nat.mod_lt _ U64M_pos
  · rw [if_neg hc] at hv
    cases hv

theorem alLook_pmEnsure (pm : PolicyMap) (p q : PolicyId) :
    alLook (pmEnsure pm p) q =
      if p = q then some ((alLook pm p).getD []) else alLook pm q := by
  unfold pmEnsure
  cases hp : alLook pm p with
  | some am =>
    by_cases hq : p = q
    · subst hq
      rw [if_pos rfl, hp]
      rfl
    · rw [if_neg hq]
  | none =>
    rw [alLook_append]
    by_cases hq : p = q
    · subst hq
      rw [hp]
      simp
    · rw [if_neg hq]
      cases alLook pm q <;> simp [hq]

theorem pmBounded_slot {pm : PolicyMap} (hb : pmBounded pm) (p : PolicyId) :
    amBounded ((alLook pm p).getD []) := by
  intro a v hv
  cases hp : alLook pm p with
  | none => rw [hp] at hv; simp [alLook] at hv
  | some am =>
    rw [hp] at hv
    have hpa : pmAmount pm p a = some v := by
      unfold pmAmount
      rw [hp]
      exact hv
    exact hb p a v hpa

theorem pm_ident {pm : PolicyMap} (hb : pmBounded pm) (q : PolicyId) (a : AssetName) :
    (if (pmAmount pm q a).isSome
      then some ((pmAmount pm q a).getD 0 % U64M) else none) = pmAmount pm q a := by
  cases hv : pmAmount pm q a with
  | none => simp
  | some v => simp [Nat.mod_eq_of_lt (hb q a v hv)]

theorem pmAddPolicy_char {chk : Bool} {pm : PolicyMap} {p : PolicyId}
    {E : List (AssetName × Nat)} {pm' : PolicyMap}
    (hwf : ∀ av ∈ E, av.2 < U64M) (hb : pmBounded pm)
    (h : pmAddPolicy chk pm p E = some pm') :
    (∀ q, pmHas pm' q = (pmHas pm q || decide (p = q))) ∧
    (∀ q a, pmAmount pm' q a =
      if (decide (p = q) && amHasAt a E) || (pmAmount pm q a).isSome
      then some (((pmAmount pm q a).getD 0 +
        if p = q then amSumAt a E else 0) % U64M)
      else none) := by
  have hdef : pmAddPolicy chk pm p E =
      match amAddAll chk ((alLook (pmEnsure pm p) p).getD []) E with
      | none => none
      | some am => some (alSet (pmEnsure pm p) p am) := rfl
  rw [hdef] at h
  cases ha : amAddAll chk ((alLook (pmEnsure pm p) p).getD []) E with
  | none => rw [ha] at h; cases h
  | some am' =>
    rw [ha] at h
    cases h
    have hslot : alLook (pmEnsure pm p) p = some ((alLook pm p).getD []) := by
      rw [alLook_pmEnsure pm p p, if_pos rfl]
    have hlook : ∀ q, alLook (alSet (pmEnsure pm p) p am') q =
        if p = q then some am' else alLook pm q := by
      intro q
      rw [alLook_alSet hslot am' q]
      by_cases hq : p = q
      · rw [if_pos hq, if_pos hq]
      · rw [if_neg hq, if_neg hq, alLook_pmEnsure pm p q, if_neg hq]
    have hamb : amBounded ((alLook pm p).getD []) := pmBounded_slot hb p
    rw [hslot] at ha
    have ham := amAddAll_look E hwf (by simpa using hamb) (by simpa using ha)
    have hslotAm : ∀ a, alLook ((alLook pm p).getD []) a = pmAmount pm p a := by
      intro a
      unfold pmAmount
      cases hp : alLook pm p
      · rfl
      · rfl
    constructor
    · intro q
      unfold pmHas
      rw [hlook q]
      by_cases hq : p = q
      · simp [hq]
      · simp [hq]
    · intro q a
      show (match alLook (alSet (pmEnsure pm p) p am') q with
        | none => none
        | some am => alLook am a) = _
      rw [hlook q]
      by_cases hq : p = q
      · subst hq
        rw [if_pos rfl]
        show alLook am' a = _
        rw [ham a, hslotAm a]
        simp
      · rw [if_neg hq]
        show pmAmount pm q a = _
        have hd0 : decide (p = q) = false := decide_eq_false hq
        simp only [hd0, Bool.false_and, Bool.false_or, if_neg hq, Nat.add_zero]
        exact (pm_ident hb q a).symm

theorem pmAddPolicy_bounded {chk : Bool} {pm : PolicyMap} {p : PolicyId}
    {E : List (AssetName × Nat)} {pm' : PolicyMap}
    (hwf : ∀ av ∈ E, av.2 < U64M) (hb : pmBounded pm)
    (h : pmAddPolicy chk pm p E = some pm') : pmBounded pm' := by
  intro q a v hv
  obtain ⟨-, hform⟩ := pmAddPolicy_char hwf hb h
  rw [hform q a] at hv
  by_cases hc : ((decide (p = q) && amHasAt a E) || (pmAmount pm q a).isSome) = true
  · rw [if_pos hc] at hv
    cases hv
    exact Nat.mod_lt _ U64M_pos
  · rw [if_neg hc] at hv
    cases hv

theorem eHasPolicy_cons (q p0 : PolicyId) (as0 : List (AssetName × Nat))
    (t : List (PolicyId × List (AssetName × Nat))) :
    eHasPolicy q ((p0, as0) :: t) = (decide (p0 = q) || eHasPolicy q t) := by
  simp [eHasPolicy]

theorem eHasPair_cons (q : PolicyId) (a : AssetName) (p0 : PolicyId)
    (as0 : List (AssetName × Nat)) (t : List (PolicyId × List (AssetName × Nat))) :
    eHasPair q a ((p0, as0) :: t) =
      ((decide (p0 = q) && amHasAt a as0) || eHasPair q a t) := by
  simp [eHasPair]

theorem eSumPair_cons (q : PolicyId) (a : AssetName) (p0 : PolicyId)
    (as0 : List (AssetName × Nat)) (t : List (PolicyId × List (AssetName × Nat))) :
    eSumPair q a ((p0, as0) :: t) =
      (if p0 = q then amSumAt a as0 else 0) + eSumPair q a t := by
  simp [eSumPair]

theorem pmAddAssets_char {chk : Bool} (E : List (PolicyId × List (AssetName × Nat))) :
    ∀ {pm pm' : PolicyMap}, eWF E → pmBounded pm → pmAddAssets chk pm E = some pm' →
    (∀ q, pmHas pm' q = (pmHas pm q || eHasPolicy q E)) ∧
    (∀ q a, pmAmount pm' q a =
      if eHasPair q a E || (pmAmount pm q a).isSome
      then some (((pmAmount pm q a).getD 0 + eSumPair q a E) % U64M)
      else none) := by
  induction E with
  | nil =>
    intro pm pm' _ hb h
    cases h
    constructor
    · intro q
      simp [eHasPolicy]
    · intro q a
      simp only [eHasPair, List.any_nil, Bool.false_or, eSumPair, List.map_nil,
        List.sum_nil, Nat.add_zero]
      exact (pm_ident hb q a).symm
  | cons hd tl ih =>
    intro pm pm' hwf hb h
    obtain ⟨p0, as0⟩ := hd
    unfold pmAddAssets at h
    cases h1 : pmAddPolicy chk pm p0 as0 with
    | none => rw [h1] at h; cases h
    | some pm1 =>
      rw [h1] at h
      have hwf0 : ∀ av ∈ as0, av.2 < U64M := hwf (p0, as0) (List.mem_cons_self _ _)
      have hwft : eWF tl := fun pe hpe => hwf pe (List.mem_cons_of_mem _ hpe)
      obtain ⟨hh1, ha1⟩ := pmAddPolicy_char hwf0 hb h1
      have hb1 : pmBounded pm1 := pmAddPolicy_bounded hwf0 hb h1
      obtain ⟨hhm, ham⟩ := ih hwft hb1 h
      constructor
      · intro q
        rw [hhm q, hh1 q, eHasPolicy_cons, Bool.or_assoc]
      · intro q a
        rw [ham q a, ha1 q a, eHasPair_cons, eSumPair_cons]
        by_cases hq : p0 = q
        · subst hq
          rw [if_pos rfl]
          cases hA : amHasAt a as0 with
          | true =>
            cases hg : pmAmount pm p0 a <;>
              simp [hA, hg, Nat.mod_add_mod, Nat.add_assoc]
          | false =>
            have hs0 : amSumAt a as0 = 0 := amSumAt_eq_zero hA
            simp [hA, hs0, pm_ident hb]
        · have hd0 : decide (p0 = q) = false := decide_eq_false hq
          simp only [hd0, Bool.false_and, Bool.false_or, if_neg hq, Nat.add_zero,
            Nat.zero_add, pm_ident hb q a]

theorem pmAddAssets_bounded {chk : Bool} {E : List (PolicyId × List (AssetName × Nat))}
    {pm pm' : PolicyMap} (hwf : eWF E) (hb : pmBounded pm)
    (h : pmAddAssets chk pm E = some pm') : pmBounded pm' := by
  intro q a v hv
  obtain ⟨-, hform⟩ := pmAddAssets_char E hwf hb h
  rw [hform q a] at hv
  by_cases hc : (eHasPair q a E || (pmAmount pm q a).isSome) = true
  · rw [if_pos hc] at hv
    cases hv
    exact Nat.mod_lt _ U64M_pos
  · rw [if_neg hc] at hv
    cases hv

theorem pm_nil_char {pm : PolicyMap} (hb : pmBounded pm) :
    (∀ q, pmHas pm q = (pmHas pm q || eHasPolicy q [])) ∧
    (∀ q a, pmAmount pm q a =
      if eHasPair q a [] || (pmAmount pm q a).isSome
      then some (((pmAmount pm q a).getD 0 + eSumPair q a []) % U64M)
      else none) :=
  @pmAddAssets_char true [] pm pm (by intro pe hpe; cases hpe) hb rfl

theorem eSumPair_eq_zero {q : PolicyId} {a : AssetName}
    {E : List (PolicyId × List (AssetName × Nat))}
    (h : eHasPair q a E = false) : eSumPair q a E = 0 := by
  induction E with
  | nil => rfl
  | cons hd tl ih =>
    obtain ⟨p0, as0⟩ := hd
    rw [eHasPair_cons] at h
    rcases Bool.or_eq_false_iff.mp h with ⟨h1, h2⟩
    rw [eSumPair_cons, ih h2, Nat.add_zero]
    by_cases hq : p0 = q
    · cases hA : amHasAt a as0 with
      | false => rw [if_pos hq, amSumAt_eq_zero hA]
      | true =>
        rw [hA, Bool.and_true] at h1
        exact absurd hq (of_decide_eq_false h1)
    · rw [if_neg hq]

theorem sumupStep_char {s : SumSt} {o : TransactionOutput} {s' : SumSt}
    (hwf : outWF o) (hb : pmBounded s.assets) (h : sumupStep s o = some s') :
    s'.coin = (s.coin + coinOf o) % U64M ∧
    (∀ q, pmHas s'.assets q = (pmHas s.assets q || eHasPolicy q (entriesOf o))) ∧
    (∀ q a, pmAmount s'.assets q a =
      if eHasPair q a (entriesOf o) || (pmAmount s.assets q a).isSome
      then some (((pmAmount s.assets q a).getD 0 + eSumPair q a (entriesOf o)) % U64M)
      else none) := by
  cases o with
  | legacy tx =>
    cases hv : tx.amount with
    | coin c =>
      have hstep : sumupStep s (.legacy tx) = some ⟨(s.coin + c) % U64M, s.assets⟩ := by
        simp only [sumupStep]
        rw [hv]
      rw [hstep] at h
      cases h
      have hco : coinOf (.legacy tx) = c := by simp only [coinOf]; rw [hv]
      have hen : entriesOf (.legacy tx) = [] := by simp only [entriesOf]; rw [hv]
      rw [hco, hen]
      exact ⟨rfl, (pm_nil_char hb).1, (pm_nil_char hb).2⟩
    | multiasset c m =>
      have hstep : sumupStep s (.legacy tx) =
          match pmAddAssets true s.assets m with
          | none => none
          | some pm => some ⟨(s.coin + c) % U64M, pm⟩ := by
        simp only [sumupStep]
        rw [hv]
      rw [hstep] at h
      cases h2 : pmAddAssets true s.assets m with
      | none => rw [h2] at h; cases h
      | some pm =>
        rw [h2] at h
        cases h
        have hco : coinOf (.legacy tx) = c := by simp only [coinOf]; rw [hv]
        have hen : entriesOf (.legacy tx) = m := by simp only [entriesOf]; rw [hv]
        rw [hco, hen]
        unfold outWF at hwf
        rw [hen] at hwf
        obtain ⟨h1, h2'⟩ := pmAddAssets_char m hwf hb h2
        exact ⟨rfl, h1, h2'⟩
  | postAlonzo tx =>
    cases hv : tx.value with
    | coin c =>
      have hstep : sumupStep s (.postAlonzo tx) = some ⟨(s.coin + c) % U64M, s.assets⟩ := by
        simp only [sumupStep]
        rw [hv]
      rw [hstep] at h
      cases h
      have hco : coinOf (.postAlonzo tx) = c := by simp only [coinOf]; rw [hv]
      have hen : entriesOf (.postAlonzo tx) = [] := by simp only [entriesOf]; rw [hv]
      rw [hco, hen]
      exact ⟨rfl, (pm_nil_char hb).1, (pm_nil_char hb).2⟩
    | multiasset c m =>
      have hstep : sumupStep s (.postAlonzo tx) =
          match pmAddAssets false s.assets m with
          | none => none
          | some pm => some ⟨(s.coin + c) % U64M, pm⟩ := by
        simp only [sumupStep]
        rw [hv]
      rw [hstep] at h
      cases h2 : pmAddAssets false s.assets m with
      | none => rw [h2] at h; cases h
      | some pm =>
        rw [h2] at h
        cases h
        have hco : coinOf (.postAlonzo tx) = c := by simp only [coinOf]; rw [hv]
        have hen : entriesOf (.postAlonzo tx) = m := by simp only [entriesOf]; rw [hv]
        rw [hco, hen]
        unfold outWF at hwf
        rw [hen] at hwf
        obtain ⟨h1, h2'⟩ := pmAddAssets_char m hwf hb h2
        exact ⟨rfl, h1, h2'⟩

theorem lCoins_cons (o : TransactionOutput) (l : List TransactionOutput) :
    lCoins (o :: l) = coinOf o + lCoins l := by
  simp [lCoins]

theorem lHasPolicy_cons (p : PolicyId) (o : TransactionOutput)
    (l : List TransactionOutput) :
    lHasPolicy p (o :: l) = (eHasPolicy p (entriesOf o) || lHasPolicy p l) := by
  simp [lHasPolicy]

theorem lHasPair_cons (p : PolicyId) (a : AssetName) (o : TransactionOutput)
    (l : List TransactionOutput) :
    lHasPair p a (o :: l) = (eHasPair p a (entriesOf o) || lHasPair p a l) := by
  simp [lHasPair]

theorem lSumPair_cons (p : PolicyId) (a : AssetName) (o : TransactionOutput)
    (l : List TransactionOutput) :
    lSumPair p a (o :: l) = eSumPair p a (entriesOf o) + lSumPair p a l := by
  simp [lSumPair]

theorem sumupGo_char (l : List TransactionOutput) :
    ∀ {s u : SumSt}, lWF l → s.coin < U64M → pmBounded s.assets →
    sumupGo s l = some u →
    u.coin = (s.coin + lCoins l) % U64M ∧
    (∀ q, pmHas u.assets q = (pmHas s.assets q || lHasPolicy q l)) ∧
    (∀ q a, pmAmount u.assets q a =
      if lHasPair q a l || (pmAmount s.assets q a).isSome
      then some (((pmAmount s.assets q a).getD 0 + lSumPair q a l) % U64M)
      else none) := by
  induction l with
  | nil =>
    intro s u _ hc hb h
    cases h
    refine ⟨?_, ?_, ?_⟩
    · simp [lCoins, Nat.mod_eq_of_lt hc]
    · intro q
      simp [lHasPolicy]
    · intro q a
      simp only [lHasPair, List.any_nil, Bool.false_or, lSumPair, List.map_nil,
        List.sum_nil, Nat.add_zero]
      exact (pm_ident hb q a).symm
  | cons o t ih =>
    intro s u hwf hc hb h
    unfold sumupGo at h
    cases h1 : sumupStep s o with
    | none => rw [h1] at h; cases h
    | some s1 =>
      rw [h1] at h
      have hwfo : outWF o := hwf o (List.mem_cons_self _ _)
      have hwft : lWF t := fun o' ho' => hwf o' (List.mem_cons_of_mem _ ho')
      obtain ⟨hc1, hh1, ha1⟩ := sumupStep_char hwfo hb h1
      have hc1' : s1.coin < U64M := by
        rw [hc1]
        exact Nat.mod_lt _ U64M_pos
      have hb1 : pmBounded s1.assets := by
        intro q a v hv
        rw [ha1 q a] at hv
        by_cases hcnd : (eHasPair q a (entriesOf o) || (pmAmount s.assets q a).isSome) = true
        · rw [if_pos hcnd] at hv
          cases hv
          exact Nat.mod_lt _ U64M_pos
        · rw [if_neg hcnd] at hv
          cases hv
      obtain ⟨hcu, hhu, hau⟩ := ih hwft hc1' hb1 h
      refine ⟨?_, ?_, ?_⟩
      · rw [hcu, hc1, lCoins_cons, Nat.mod_add_mod, Nat.add_assoc]
      · intro q
        rw [hhu q, hh1 q, lHasPolicy_cons, Bool.or_assoc]
      · intro q a
        rw [hau q a, ha1 q a, lHasPair_cons, lSumPair_cons]
        cases hc0 : eHasPair q a (entriesOf o) with
        | true =>
          cases hg : pmAmount s.assets q a <;>
            simp [hc0, hg, Nat.mod_add_mod, Nat.add_assoc]
        | false =>
          have hs0 : eSumPair q a (entriesOf o) = 0 := eSumPair_eq_zero hc0
          simp [hc0, hs0, pm_ident hb]

theorem perm_any {α : Type} {l l' : List α} (h : l.Perm l') (f : α → Bool) :
    l.any f = l'.any f := by
  cases hx : l'.any f with
  | true =>
    rw [List.any_eq_true] at hx ⊢
    obtain ⟨x, hxl, hfx⟩ := hx
    exact ⟨x, h.mem_iff.mpr hxl, hfx⟩
  | false =>
    rw [List.any_eq_false] at hx ⊢
    intro x hxl
    exact hx x (h.mem_iff.mp hxl)

theorem perm_sum {α : Type} {l l' : List α} (h : l.Perm l') (f : α → Nat) :
    (l.map f).sum = (l'.map f).sum :=
  (h.map f).sum_eq

theorem pmHas_cons_self (pe : PolicyId × AssetMap) (t : PolicyMap) :
    pmHas (pe :: t) pe.1 = true := by
  obtain ⟨k, v⟩ := pe
  simp [pmHas, alLook]

/-- Equality of emitted `Value`s up to the order of their policy and asset
entries: equal coin totals, the same policy keys present, and the same
amount for every `(policy, asset)` key. -/
def valueEquiv : Value → Value → Prop
  | .coin c1, .coin c2 => c1 = c2
  | .multiasset c1 m1, .multiasset c2 m2 =>
    c1 = c2 ∧ (∀ p, pmHas m1 p = pmHas m2 p) ∧ (∀ p a, pmAmount m1 p a = pmAmount m2 p a)
  | _, _ => False

/-- C9 amended: for a list of outputs and a permutation of it, whenever the
aggregator completes without aborting on both orders (all amounts being
`u64` values), the two resulting `Value`s are equal up to reordering of
policy and asset entries: same coin total, same policy keys present, and
the same total for every `(policy, asset)` key.  The concrete entry order
of the emitted `Multiasset` may differ between the two orders (the
source's `HashMap` has no specified order), and which orders abort also
differs, so identity of the emitted structures does not hold. -/
theorem sumup_perm_content_equal (l l' : List TransactionOutput) (v v' : Value)
    (hperm : l.Perm l') (hwf : lWF l)
    (h : sumup l = some v) (h' : sumup l' = some v') : valueEquiv v v' := by
  have hwf' : lWF l' := fun o ho => hwf o (hperm.mem_iff.mpr ho)
  unfold sumup at h h'
  cases hu : sumupGo ⟨0, []⟩ l with
  | none => rw [hu] at h; cases h
  | some u =>
  rw [hu] at h
  cases hu' : sumupGo ⟨0, []⟩ l' with
  | none => rw [hu'] at h'; cases h'
  | some w =>
  rw [hu'] at h'
  have h := show (match u.assets with
      | [] => some (Value.coin u.coin)
      | pe :: t => some (Value.multiasset u.coin (pe :: t))) = some v from h
  have h' := show (match w.assets with
      | [] => some (Value.coin w.coin)
      | pe :: t => some (Value.multiasset w.coin (pe :: t))) = some v' from h'
  have hb0 : pmBounded ([] : PolicyMap) := by
    intro p a v0 hv0
    simp [pmAmount, alLook] at hv0
  obtain ⟨hcu, hhu, hau⟩ := sumupGo_char l hwf (by norm_num [U64M]) hb0 hu
  obtain ⟨hcw, hhw, haw⟩ := sumupGo_char l' hwf' (by norm_num [U64M]) hb0 hu'
  simp only [show ∀ q a, pmAmount ([] : PolicyMap) q a = none from fun _ _ => rfl,
    show ∀ q, pmHas ([] : PolicyMap) q = false from fun _ => rfl,
    Option.isSome_none, Bool.or_false, Bool.false_or, Option.getD_none,
    Nat.zero_add] at hcu hhu hau hcw hhw haw
  have hcoins : lCoins l = lCoins l' := perm_sum hperm coinOf
  have hpol : ∀ q, lHasPolicy q l = lHasPolicy q l' := fun q => perm_any hperm _
  have hpair : ∀ q a, lHasPair q a l = lHasPair q a l' := fun q a => perm_any hperm _
  have hsum : ∀ q a, lSumPair q a l = lSumPair q a l' := fun q a => perm_sum hperm _
  cases hue : u.assets with
  | nil =>
    cases hwe : w.assets with
    | nil =>
      rw [hue] at h
      rw [hwe] at h'
      cases h
      cases h'
      show u.coin = w.coin
      rw [hcu, hcw, hcoins]
    | cons pe t =>
      exfalso
      have h1 : pmHas w.assets pe.1 = true := by
        rw [hwe]
        exact pmHas_cons_self pe t
      rw [hhw pe.1, ← hpol pe.1] at h1
      have h2 := hhu pe.1
      rw [hue, h1] at h2
      exact absurd h2.symm (by simp [pmHas, alLook])
  | cons pe t =>
    cases hwe : w.assets with
    | nil =>
      exfalso
      have h1 : pmHas u.assets pe.1 = true := by
        rw [hue]
        exact pmHas_cons_self pe t
      rw [hhu pe.1, hpol pe.1] at h1
      have h2 := hhw pe.1
      rw [hwe, h1] at h2
      exact absurd h2.symm (by simp [pmHas, alLook])
    | cons pe' t' =>
      rw [hue] at h
      rw [hwe] at h'
      cases h
      cases h'
      refine ⟨?_, ?_, ?_⟩
      · rw [hcu, hcw, hcoins]
      · intro q
        rw [← hue, ← hwe, hhu q, hhw q, hpol q]
      · intro q a
        rw [← hue, ← hwe, hau q a, haw q a, hpair q a, hsum q a]

/-- Two post-Alonzo outputs with distinct policies, used as the witness
permutation pair for the amended C9. -/
def c9wa : TransactionOutput := .postAlonzo ⟨[], .multiasset 0 [([1], [([7], 1)])], none, none⟩

/-- Second witness output for the amended C9. -/
def c9wb : TransactionOutput := .postAlonzo ⟨[], .multiasset 0 [([2], [([8], 3)])], none, none⟩

/-- Witness for the amended C9: a two-output swap, both orders aggregating
successfully to structurally different but content-equal values. -/
theorem sumup_perm_content_equal_witness :
    valueEquiv (.multiasset 0 [([1], [([7], 1)]), ([2], [([8], 3)])])
      (.multiasset 0 [([2], [([8], 3)]), ([1], [([7], 1)])]) :=
  sumup_perm_content_equal [c9wa, c9wb] [c9wb, c9wa] _ _
    (List.Perm.swap c9wb c9wa []) (by unfold lWF outWF eWF; decide) (by rfl) (by rfl)

end CardanoConnector
